import Mathlib

/-!
Verification development for the video-joiner single-page application
(`src/src/App.tsx`, with a localized variant in `src/unnamed/part_000`).

The application keeps an ordered list of selected clips, lets the user
reorder/remove them, and joins them by staging each clip into an
FFmpeg-wasm virtual file system, writing a concat playlist, running the
concat-demuxer stream copy, and reading back `output.mp4`.

The embedding below translates the list-manipulation callbacks and the
join workflow into pure Lean functions.  Asynchronous engine calls are
modelled by an `Engine` oracle that decides the success or failure of
each call, and a run of `handleJoin` returns the final component state
together with the ordered trace of engine calls and blob-URL events it
performed.
-/

namespace VideoJoiner

/-- Payload of one user-selected file (`File` in the browser):
its name, size and contents. -/
structure FileInfo where
  name : String
  size : Nat
  bytes : List Nat
deriving DecidableEq

/-- One entry of the clip list (`type Clip = { id: string; file: File }`). -/
structure Clip where
  id : String
  name : String
  size : Nat
  bytes : List Nat
deriving DecidableEq

/-! ### `moveClip` (App.tsx lines 111-122, part_000 lines 150-161)

```js
const moveClip = useCallback((index: number, delta: number) => {
  setClips((prev) => {
    const next = [...prev]
    const targetIndex = index + delta
    if (targetIndex < 0 || targetIndex >= next.length) {
      return prev
    }
    const [item] = next.splice(index, 1)
    next.splice(targetIndex, 0, item)
    return next
  })
}, [])
```

A JavaScript array may hold `undefined`, and `[item] = next.splice(index, 1)`
yields `undefined` when `index` is at or past the end of the array (the
splice removes nothing).  Entries are therefore modelled as `Option α`
with `none` standing for `undefined`.

JS `splice(index, 1)` with an in-range index removes the element there
(`List.eraseIdx` has exactly this semantics, including the no-op when
`index` is out of range), and `splice(targetIndex, 0, item)` inserts
`item` at `targetIndex` (`List.insertIdx`; under the guard
`targetIndex` never exceeds the length of the shortened array, so the
two agree). -/
def moveClip (index : Nat) (delta : Int) (prev : List (Option α)) : List (Option α) :=
  if (index : Int) + delta < 0 ∨ (prev.length : Int) ≤ (index : Int) + delta then prev
  else (prev.eraseIdx index).insertIdx ((index : Int) + delta).toNat
    ((prev.get? index).getD none)

/-- Direction of a move request as issued by the UI: the up-arrow calls
`moveClip(index, -1)`, the down-arrow `moveClip(index, 1)`. -/
inductive MoveDir where
  | up
  | down
deriving DecidableEq

/-- Delta passed to `moveClip` for each direction (see the `onClick`
handlers in App.tsx lines 249 and 258). -/
def MoveDir.delta : MoveDir → Int
  | .up => -1
  | .down => 1

/-- Modelled from the spec: swap of the two adjacent entries at
positions `i` and `i + 1`; identity when `i + 1` is out of range.  Used
as the declarative reading of "swaps-by-shift the clip at `index` with
its neighbor". -/
def swapAdj : Nat → List α → List α
  | 0, a :: b :: t => b :: a :: t
  | n + 1, a :: t => a :: swapAdj n t
  | _, l => l

/-- Modelled from the spec: `moveClip(index, direction)` as §4.1 words
it — swap with the neighbor in the requested direction, no-op when the
move would go out of bounds. -/
def specMoveClip (index : Nat) (dir : MoveDir) (l : List α) : List α :=
  match dir with
  | .down => swapAdj index l
  | .up =>
    match index with
    | 0 => l
    | j + 1 => swapAdj j l

theorem swapAdj_of_le (l : List α) (i : Nat) (h : l.length ≤ i + 1) :
    swapAdj i l = l := by
  induction l generalizing i with
  | nil => cases i <;> rfl
  | cons a t ih =>
    cases i with
    | zero =>
      cases t with
      | nil => rfl
      | cons b t' => simp at h
    | succ j =>
      simp only [List.length_cons] at h
      simp [swapAdj, ih j (by omega)]

theorem swapAdj_map (f : α → β) (l : List α) (i : Nat) :
    swapAdj i (l.map f) = (swapAdj i l).map f := by
  induction l generalizing i with
  | nil => cases i <;> rfl
  | cons a t ih =>
    cases i with
    | zero =>
      cases t with
      | nil => rfl
      | cons b t' => rfl
    | succ j => simp [swapAdj, ih j]

theorem swapAdj_perm (l : List α) (i : Nat) : (swapAdj i l).Perm l := by
  induction l generalizing i with
  | nil => cases i <;> rfl
  | cons a t ih =>
    cases i with
    | zero =>
      cases t with
      | nil => rfl
      | cons b t' => exact List.Perm.swap a b t'
    | succ j => simpa [swapAdj] using List.Perm.cons a (ih j)

/-- Moving from a positive source index inside a `cons` commutes with
the head, provided the target index is nonnegative on the tail. -/
theorem moveClip_cons_succ (a : Option α) (t : List (Option α)) (j : Nat) (d : Int)
    (hd : 0 ≤ (j : Int) + d) :
    moveClip (j + 1) d (a :: t) = a :: moveClip j d t := by
  unfold moveClip
  by_cases hlen : (t.length : Int) ≤ (j : Int) + d
  · have g1 : ((j + 1 : Nat) : Int) + d < 0 ∨
        (((a :: t).length : Int) ≤ ((j + 1 : Nat) : Int) + d) := by
      right
      simp only [List.length_cons]
      push_cast
      omega
    rw [if_pos g1, if_pos (Or.inr hlen)]
  · have g1 : ¬(((j + 1 : Nat) : Int) + d < 0 ∨
        (((a :: t).length : Int) ≤ ((j + 1 : Nat) : Int) + d)) := by
      push_neg
      refine ⟨by omega, ?_⟩
      simp only [List.length_cons]
      push_cast
      omega
    have g2 : ¬(((j : Nat) : Int) + d < 0 ∨ ((t.length : Int) ≤ ((j : Nat) : Int) + d)) := by
      push_neg
      exact ⟨hd, by omega⟩
    rw [if_neg g1, if_neg g2]
    have htn : (((j + 1 : Nat) : Int) + d).toNat = ((j : Int) + d).toNat + 1 := by omega
    simp only [List.get?_cons_succ, List.eraseIdx_cons_succ, htn,
      List.insertIdx_succ_cons]

/-- Down-move of an in-range index is the adjacent swap at that index
(when the index is last, both sides are the identity). -/
theorem moveClip_down (l : List (Option α)) (i : Nat) (h : i < l.length) :
    moveClip i 1 l = swapAdj i l := by
  induction l generalizing i with
  | nil => simp at h
  | cons a t ih =>
    cases i with
    | zero =>
      cases t with
      | nil =>
        have : moveClip 0 1 [a] = [a] := by
          unfold moveClip
          rw [if_pos (Or.inr (by norm_num))]
        rw [this]
        rfl
      | cons b t' =>
        have g : ¬(((0 : Nat) : Int) + 1 < 0 ∨
            (((a :: b :: t').length : Int) ≤ ((0 : Nat) : Int) + 1)) := by
          push_neg
          refine ⟨by norm_num, ?_⟩
          simp only [List.length_cons]
          push_cast
          omega
        unfold moveClip
        rw [if_neg g]
        simp [swapAdj, List.insertIdx_succ_cons, List.insertIdx_zero]
    | succ j =>
      simp only [List.length_cons, Nat.succ_lt_succ_iff] at h
      rw [moveClip_cons_succ a t j 1 (by omega), ih j h]
      rfl

/-- Up-move at index 0 is a no-op (the guard `targetIndex < 0` fires). -/
theorem moveClip_up_zero (l : List (Option α)) : moveClip 0 (-1) l = l := by
  unfold moveClip
  rw [if_pos (Or.inl (by norm_num))]

/-- Up-move of an in-range positive index is the adjacent swap one
position below. -/
theorem moveClip_up_succ (l : List (Option α)) (j : Nat) (h : j + 1 < l.length) :
    moveClip (j + 1) (-1) l = swapAdj j l := by
  induction j generalizing l with
  | zero =>
    match l, h with
    | a :: b :: t, _ =>
      have g : ¬(((1 : Nat) : Int) + (-1) < 0 ∨
          (((a :: b :: t).length : Int) ≤ ((1 : Nat) : Int) + (-1))) := by
        push_neg
        refine ⟨by norm_num, ?_⟩
        simp only [List.length_cons]
        push_cast
        omega
      unfold moveClip
      rw [if_neg g]
      have htn : (((1 : Nat) : Int) + (-1)).toNat = 0 := by norm_num
      simp [htn, swapAdj, List.insertIdx_zero]
  | succ k ih =>
    match l, h with
    | a :: t, h =>
      have h' : k + 1 < t.length := by
        simp only [List.length_cons] at h
        omega
      rw [moveClip_cons_succ a t (k + 1) (-1) (by omega), ih t h']
      rfl

/-- Down-move of the last index is a no-op (the target falls past the
end and the guard fires). -/
theorem moveClip_down_last (l : List (Option α)) (h : l ≠ []) :
    moveClip (l.length - 1) 1 l = l := by
  unfold moveClip
  rw [if_pos]
  right
  have : 1 ≤ l.length := List.length_pos.mpr h
  omega

/-- C6: for every clip list and every in-range index, `moveClip(index,
direction)` with direction up or down produces the list with the clip at
`index` swapped with its neighbor in that direction (the declarative
`specMoveClip`, which is also a no-op at the boundary), and
`moveClip(0, up)` and `moveClip(last, down)` leave the sequence
unchanged; the function never errors (it is total). -/
theorem c6_moveClip_swap_or_noop (l : List (Option α)) (i : Nat) (d : MoveDir)
    (h : i < l.length) :
    moveClip i d.delta l = specMoveClip i d l
    ∧ moveClip 0 MoveDir.up.delta l = l
    ∧ (l ≠ [] → moveClip (l.length - 1) MoveDir.down.delta l = l) := by
  refine ⟨?_, moveClip_up_zero l, fun hne => moveClip_down_last l hne⟩
  cases d with
  | down => exact moveClip_down l i h
  | up =>
    cases i with
    | zero => exact moveClip_up_zero l
    | succ j => exact moveClip_up_succ l j h

/-- Witness for C6 at the concrete list `[A, B, C]`, moving index 1 down:
the result swaps B and C, and both boundary moves are no-ops. -/
theorem c6_moveClip_swap_or_noop_witness :
    (1 < 3) ∧
    (moveClip 1 MoveDir.down.delta [some 10, some 20, some 30]
        = specMoveClip 1 MoveDir.down [some 10, some 20, some 30]
      ∧ moveClip 0 MoveDir.up.delta [some 10, some 20, some 30]
        = [some (10 : Nat), some 20, some 30]
      ∧ ([some (10 : Nat), some 20, some 30] ≠ [] →
          moveClip ([some (10 : Nat), some 20, some 30].length - 1) MoveDir.down.delta
            [some 10, some 20, some 30] = [some 10, some 20, some 30])) :=
  ⟨by decide, c6_moveClip_swap_or_noop [some 10, some 20, some 30] 1 MoveDir.down (by decide)⟩

/-- C10: `moveClip` only bounds-checks the target position.  For a
source index at or past the end whose target lands in range, the splice
removes nothing, yet the (undefined) destructured element is still
inserted: the list grows by one and now contains an undefined (`none`)
entry, so well-formedness of the clip list is not preserved. -/
theorem c10_moveClip_out_of_range_source (l : List (Option α)) (i : Nat) (d : Int)
    (hsrc : l.length ≤ i) (h0 : 0 ≤ (i : Int) + d) (hlt : (i : Int) + d < (l.length : Int)) :
    moveClip i d l = l.insertIdx ((i : Int) + d).toNat none
    ∧ (moveClip i d l).length = l.length + 1
    ∧ none ∈ moveClip i d l := by
  have hguard : ¬((i : Int) + d < 0 ∨ (l.length : Int) ≤ (i : Int) + d) := by
    push_neg
    exact ⟨h0, hlt⟩
  have hget : l.get? i = none := by
    rw [List.get?_eq_none]
    exact hsrc
  have heq : moveClip i d l = l.insertIdx ((i : Int) + d).toNat none := by
    unfold moveClip
    rw [if_neg hguard, List.eraseIdx_of_length_le hsrc, hget]
    rfl
  have hle : ((i : Int) + d).toNat ≤ l.length := by omega
  refine ⟨heq, ?_, ?_⟩
  · rw [heq]
    exact List.length_insertIdx _ _ hle
  · rw [heq]
    exact (List.mem_insertIdx hle).mpr (Or.inl rfl)

/-- Witness for C10: a two-element list, source index 5, delta −4 (target
index 1): the result has length 3 and contains an undefined entry. -/
theorem c10_moveClip_out_of_range_source_witness :
    ([some (1 : Nat), some 2].length ≤ 5 ∧ 0 ≤ ((5 : Nat) : Int) + (-4)
      ∧ ((5 : Nat) : Int) + (-4) < ([some (1 : Nat), some 2].length : Int))
    ∧ (moveClip 5 (-4) [some (1 : Nat), some 2]
        = [some (1 : Nat), some 2].insertIdx (((5 : Nat) : Int) + (-4)).toNat none
      ∧ (moveClip 5 (-4) [some (1 : Nat), some 2]).length = [some (1 : Nat), some 2].length + 1
      ∧ none ∈ moveClip 5 (-4) [some (1 : Nat), some 2]) :=
  ⟨⟨by decide, by decide, by decide⟩,
    c10_moveClip_out_of_range_source [some 1, some 2] 5 (-4) (by decide) (by decide) (by decide)⟩

/-! ### The join workflow (`handleJoin`, App.tsx lines 130-197)

The FFmpeg engine is opaque: each call either succeeds or throws.  An
`Engine` oracle fixes the outcome of every call of one `handleJoin`
invocation, and the run is modelled as a pure function from the oracle
and the component state to the final state plus the ordered trace of
engine calls and object-URL events. -/

/-- Extension derivation, from
`const ext = clip.file.name.split('.').pop() ?? 'mp4'` (App.tsx line 154).
JavaScript `split` is modelled on the character list: `"".split('.')`
is `[""]`, so the list of segments is never empty. -/
def extOf (name : String) : String :=
  ((((name.data.splitOn '.').map fun cs => String.mk cs).getLast?).getD "mp4")

/-- Staged temporary name for the clip at `index`:
``` `clip-${index}.${ext}` ``` (App.tsx line 155). -/
def inputNameFor (i : Nat) (c : Clip) : String :=
  "clip-" ++ toString i ++ "." ++ extOf c.name

/-- Playlist text, from
`inputNames.map((name) => `file '${name}'`).join('\n')` (App.tsx line 160). -/
def playlistOf (names : List String) : String :=
  String.intercalate "\n" (names.map fun nm => "file '" ++ nm ++ "'")

/-- Encoding of the playlist text into the byte buffer handed to
`ffmpeg.writeFile` (`new TextEncoder().encode(...)`, App.tsx line 161).
The claims only depend on the buffer determining the text, so the
encoding is modelled as the code-point sequence. -/
def encodeText (s : String) : List Nat := s.data.map Char.toNat

/-- Fixed argument vector of the concat invocation (App.tsx line 166). -/
def concatArgs : List String :=
  ["-f", "concat", "-safe", "0", "-i", "filelist.txt", "-c", "copy", "output.mp4"]

/-- Oracle fixing the outcome of every engine call within one run:
whether the core load succeeds, which `writeFile` names succeed, whether
`exec` succeeds, whether `readFile('output.mp4')` returns at all
(`readOk`) and whether the returned value is a `Uint8Array`
(`readIsBytes`; when false the code throws
`'Unexpected FFmpeg output format.'`), and the `message` property of
any error the engine throws (`none` models an `undefined` message).
`deleteFile` outcomes are irrelevant — every `deleteFile` has
`.catch(() => undefined)` attached. -/
structure Engine where
  loadOk : Bool
  writeOk : String → Bool
  execOk : Bool
  readOk : Bool
  readIsBytes : Bool
  errMsg : Option String

/-- One call into the engine's working storage, as recorded in a run
trace. -/
inductive EngineCall where
  | deleteFile (name : String)
  | writeFile (name : String) (data : List Nat)
  | runExec (args : List String)
  | readFile (name : String)
deriving DecidableEq

/-- Object-URL lifecycle events (`URL.createObjectURL` /
`URL.revokeObjectURL`), in the order they are issued. -/
inductive UrlEvent where
  | create (url : Nat)
  | revoke (url : Nat)
deriving DecidableEq

/-- Component state of `App` (the `useState`/`useRef` cells that the
claims are about).  Object URLs are modelled as naturals allocated from
`nextUrl`; `liveUrls` holds the URLs created and not yet revoked, so a
release of the retained artifact's resource is visible as removal from
`liveUrls`. -/
structure AppState where
  clips : List Clip
  status : String
  progressMessage : String
  isLoadingFFmpeg : Bool
  isJoining : Bool
  isFFmpegReady : Bool
  hasEngine : Bool
  outputUrl : Option Nat
  liveUrls : List Nat
  nextUrl : Nat
deriving DecidableEq

def msgPickTwo : String := "Pick two or more videos to get started."
def msgSelectAtLeastTwo : String := "Select at least two videos to join."
def msgPreparing : String := "Preparing files..."
def msgDownloadingCore : String := "Downloading FFmpeg core..."
def msgFFmpegReady : String := "FFmpeg ready."
def msgLoadFailed : String := "Failed to load FFmpeg core."
def msgJoining : String := "Joining videos..."
def msgReady : String := "Combined video ready!"
def msgPreview : String := "You can preview or download the merged file below."
def msgJoinFailed : String := "Sorry, the join failed."
def msgGuidance : String :=
  "Check that the clips share the same codec/size – FFmpeg concat with copy requires matching streams."
def msgUnknownError : String := "Unknown error"
def msgUnexpectedFormat : String := "Unexpected FFmpeg output format."

/-- Sequential execution of `ensureFFmpeg` (App.tsx lines 47-85): if an
engine instance exists and is ready, return it immediately; otherwise
create the instance if needed, fetch the boot artifacts and load the
core.  The returned flag is `true` when the caller gets an engine
(resolution) and `false` when the call rejects. -/
def ensureFFmpeg (eng : Engine) (s : AppState) : AppState × Bool :=
  if s.hasEngine && s.isFFmpegReady then (s, true)
  else
    let s1 := { s with
      hasEngine := true, isLoadingFFmpeg := true, status := msgDownloadingCore }
    if eng.loadOk then
      ({ s1 with
          isFFmpegReady := true, status := msgFFmpegReady, progressMessage := "",
          isLoadingFFmpeg := false }, true)
    else
      ({ s1 with
          status := msgLoadFailed,
          progressMessage := eng.errMsg.getD msgUnknownError,
          isLoadingFFmpeg := false }, false)

/-- Whether a `handleJoin` run obtains a usable engine: either the
engine was already loaded, or the in-run load succeeds. -/
def engineReadyAfter (eng : Engine) (s : AppState) : Bool :=
  (s.hasEngine && s.isFFmpegReady) || eng.loadOk

/-- Staging loop (App.tsx lines 153-158): stage each clip of the
snapshot, in order, under its derived temporary name; the first failing
`writeFile` throws and aborts the loop.  Returns the accumulated
`inputNames` (`none` if aborted) and the trace of attempted calls. -/
def stageClips (eng : Engine) : List (Nat × Clip) → Option (List String) × List EngineCall
  | [] => (some [], [])
  | (i, c) :: rest =>
    if eng.writeOk (inputNameFor i c) then
      match stageClips eng rest with
      | (names?, evs) =>
        (names?.map (inputNameFor i c :: ·),
         EngineCall.writeFile (inputNameFor i c) c.bytes :: evs)
    else (none, [EngineCall.writeFile (inputNameFor i c) c.bytes])

/-- State left by the `catch` block of `handleJoin` plus its `finally`
(App.tsx lines 187-196): failure status, the thrown error's message (or
the codec guidance text when the message is `undefined`), joining flag
cleared. -/
def joinFail (msg : Option String) (s : AppState) : AppState :=
  { s with
    status := msgJoinFailed, progressMessage := msg.getD msgGuidance,
    isJoining := false }

/-- Result of one `handleJoin` invocation: final component state, the
trace of engine calls, and the trace of object-URL events. -/
structure RunResult where
  state : AppState
  calls : List EngineCall
  urls : List UrlEvent
deriving DecidableEq

/-- Upfront leftover deletes (App.tsx lines 150-151). -/
def preDeletes : List EngineCall :=
  [EngineCall.deleteFile "filelist.txt", EngineCall.deleteFile "output.mp4"]

/-- URL events of the prologue of `handleJoin` (App.tsx lines 140-143):
the previously retained output URL, if any, is revoked. -/
def revokesOf (s : AppState) : List UrlEvent :=
  match s.outputUrl with
  | some u => [UrlEvent.revoke u]
  | none => []

/-- State after the prologue of `handleJoin` (App.tsx lines 136-143):
joining flag raised, status and progress message set, and the
previously retained output URL revoked and cleared. -/
def prologue (s : AppState) : AppState :=
  let s1 := { s with isJoining := true, status := msgPreparing, progressMessage := "" }
  match s1.outputUrl with
  | some u => { s1 with outputUrl := none, liveUrls := s1.liveUrls.erase u }
  | none => s1

/-- The `handleJoin` callback (App.tsx lines 130-197), as a function of
the engine oracle and the component state.  The clip list iterated by
the staging loop is the `clips` value captured by the callback's
closure, i.e. the sequence snapshotted at submission. -/
def handleJoin (eng : Engine) (s : AppState) : RunResult :=
  if s.clips.length < 2 then
    { state := { s with status := msgSelectAtLeastTwo }, calls := [], urls := [] }
  else
    let revokes := revokesOf s
    match ensureFFmpeg eng (prologue s) with
    | (s3, false) =>
      { state := joinFail eng.errMsg s3, calls := [], urls := revokes }
    | (s3, true) =>
      match stageClips eng s.clips.enum with
      | (none, evs) =>
        { state := joinFail eng.errMsg s3, calls := preDeletes ++ evs, urls := revokes }
      | (some names, evs) =>
        let wl := [EngineCall.writeFile "filelist.txt" (encodeText (playlistOf names))]
        if eng.writeOk "filelist.txt" then
          let s4 := { s3 with status := msgJoining }
          if eng.execOk then
            if eng.readOk then
              if eng.readIsBytes then
                { state := { s4 with
                    outputUrl := some s4.nextUrl,
                    liveUrls := s4.liveUrls ++ [s4.nextUrl], nextUrl := s4.nextUrl + 1,
                    status := msgReady, progressMessage := msgPreview, isJoining := false },
                  calls := preDeletes ++ evs ++ wl ++ [EngineCall.runExec concatArgs]
                    ++ [EngineCall.readFile "output.mp4"]
                    ++ names.map EngineCall.deleteFile ++ preDeletes,
                  urls := revokes ++ [UrlEvent.create s4.nextUrl] }
              else
                { state := joinFail (some msgUnexpectedFormat) s4,
                  calls := preDeletes ++ evs ++ wl ++ [EngineCall.runExec concatArgs]
                    ++ [EngineCall.readFile "output.mp4"],
                  urls := revokes }
            else
              { state := joinFail eng.errMsg s4,
                calls := preDeletes ++ evs ++ wl ++ [EngineCall.runExec concatArgs]
                  ++ [EngineCall.readFile "output.mp4"],
                urls := revokes }
          else
            { state := joinFail eng.errMsg s4,
              calls := preDeletes ++ evs ++ wl ++ [EngineCall.runExec concatArgs],
              urls := revokes }
        else
          { state := joinFail eng.errMsg s3, calls := preDeletes ++ evs ++ wl,
            urls := revokes }

/-- The `clearAll` callback (App.tsx lines 124-128): it resets the clip
list and the two message lines — and nothing else. -/
def clearAll (s : AppState) : AppState :=
  { s with clips := [], status := msgPickTwo, progressMessage := "" }

/-- Success condition of a `handleJoin` run: engine available and every
engine call of the workflow succeeds. -/
def joinOk (eng : Engine) (s : AppState) : Bool :=
  engineReadyAfter eng s
    && (s.clips.enum.all fun p => eng.writeOk (inputNameFor p.1 p.2))
    && eng.writeOk "filelist.txt" && eng.execOk && eng.readOk && eng.readIsBytes

/-! ### Concrete fixtures used by witnesses and counterexamples -/

def clipA : Clip := { id := "a", name := "clip1.mp4", size := 5, bytes := [1] }
def clipB : Clip := { id := "b", name := "clip2.mp4", size := 3, bytes := [2] }
def clipNoExt : Clip := { id := "c", name := "video", size := 1, bytes := [3] }

def engineAllOk : Engine :=
  { loadOk := true, writeOk := fun _ => true, execOk := true, readOk := true,
    readIsBytes := true, errMsg := none }

def engineExecFails : Engine :=
  { loadOk := true, writeOk := fun _ => true, execOk := false, readOk := true,
    readIsBytes := true, errMsg := none }

def baseState : AppState :=
  { clips := [clipA, clipB], status := "", progressMessage := "", isLoadingFFmpeg := false,
    isJoining := false, isFFmpegReady := false, hasEngine := false, outputUrl := some 0,
    liveUrls := [0], nextUrl := 1 }

def oneClipState : AppState := { baseState with clips := [clipA] }

def retainedState : AppState := { baseState with outputUrl := some 7, liveUrls := [7] }

def noExtState : AppState := { baseState with clips := [clipNoExt, clipB] }

/-! ### Helper lemmas about the run prologue and the engine load -/

theorem prologue_clips (s : AppState) : (prologue s).clips = s.clips := by
  unfold prologue
  cases hu : s.outputUrl <;> simp [hu]

theorem prologue_outputUrl (s : AppState) : (prologue s).outputUrl = none := by
  unfold prologue
  cases hu : s.outputUrl <;> simp [hu]

theorem prologue_hasEngine (s : AppState) : (prologue s).hasEngine = s.hasEngine := by
  unfold prologue
  cases hu : s.outputUrl <;> simp [hu]

theorem prologue_isFFmpegReady (s : AppState) :
    (prologue s).isFFmpegReady = s.isFFmpegReady := by
  unfold prologue
  cases hu : s.outputUrl <;> simp [hu]

theorem prologue_nextUrl (s : AppState) : (prologue s).nextUrl = s.nextUrl := by
  unfold prologue
  cases hu : s.outputUrl <;> simp [hu]

theorem ensureFFmpeg_snd (eng : Engine) (s : AppState) :
    (ensureFFmpeg eng s).2 = ((s.hasEngine && s.isFFmpegReady) || eng.loadOk) := by
  unfold ensureFFmpeg
  cases h1 : s.hasEngine && s.isFFmpegReady <;> cases h2 : eng.loadOk <;> simp [h1, h2]

theorem ensureFFmpeg_fst_clips (eng : Engine) (s : AppState) :
    ((ensureFFmpeg eng s).1).clips = s.clips := by
  unfold ensureFFmpeg
  cases h1 : s.hasEngine && s.isFFmpegReady <;> cases h2 : eng.loadOk <;> simp [h1, h2]

theorem ensureFFmpeg_fst_outputUrl (eng : Engine) (s : AppState) :
    ((ensureFFmpeg eng s).1).outputUrl = s.outputUrl := by
  unfold ensureFFmpeg
  cases h1 : s.hasEngine && s.isFFmpegReady <;> cases h2 : eng.loadOk <;> simp [h1, h2]

theorem ensureFFmpeg_fst_nextUrl (eng : Engine) (s : AppState) :
    ((ensureFFmpeg eng s).1).nextUrl = s.nextUrl := by
  unfold ensureFFmpeg
  cases h1 : s.hasEngine && s.isFFmpegReady <;> cases h2 : eng.loadOk <;> simp [h1, h2]

theorem stageClips_ok (eng : Engine) (ps : List (Nat × Clip))
    (h : ∀ p ∈ ps, eng.writeOk (inputNameFor p.1 p.2) = true) :
    stageClips eng ps
      = (some (ps.map fun p => inputNameFor p.1 p.2),
         ps.map fun p => EngineCall.writeFile (inputNameFor p.1 p.2) p.2.bytes) := by
  induction ps with
  | nil => rfl
  | cons p rest ih =>
    obtain ⟨i, c⟩ := p
    have hp := h (i, c) (List.mem_cons_self _ _)
    have hrest := ih fun q hq => h q (List.mem_cons_of_mem _ hq)
    unfold stageClips
    rw [if_pos (by exact_mod_cast hp), hrest]
    rfl

theorem stageClips_calls_writes (eng : Engine) (ps : List (Nat × Clip)) :
    ∀ e ∈ (stageClips eng ps).2, ∃ nm data, e = EngineCall.writeFile nm data := by
  induction ps with
  | nil =>
    intro e he
    simp [stageClips] at he
  | cons p rest ih =>
    obtain ⟨i, c⟩ := p
    intro e he
    by_cases hw : eng.writeOk (inputNameFor i c) = true
    · rcases hrest : stageClips eng rest with ⟨names?, evs⟩
      rw [show stageClips eng ((i, c) :: rest)
          = (names?.map (inputNameFor i c :: ·),
             EngineCall.writeFile (inputNameFor i c) c.bytes :: evs) by
        unfold stageClips
        rw [if_pos (by exact_mod_cast hw), hrest]] at he
      rcases List.mem_cons.mp he with he | he
      · exact ⟨_, _, he⟩
      · exact ih e (by rw [hrest]; exact he)
    · rw [show stageClips eng ((i, c) :: rest)
          = (none, [EngineCall.writeFile (inputNameFor i c) c.bytes]) by
        unfold stageClips
        rw [if_neg (by simpa using hw)]] at he
      rcases List.mem_cons.mp he with he | he
      · exact ⟨_, _, he⟩
      · simp at he

theorem stageClips_some (eng : Engine) (ps : List (Nat × Clip)) (names : List String)
    (evs : List EngineCall) (h : stageClips eng ps = (some names, evs)) :
    (∀ p ∈ ps, eng.writeOk (inputNameFor p.1 p.2) = true)
    ∧ names = ps.map (fun p => inputNameFor p.1 p.2)
    ∧ evs = ps.map (fun p => EngineCall.writeFile (inputNameFor p.1 p.2) p.2.bytes) := by
  induction ps generalizing names evs with
  | nil =>
    unfold stageClips at h
    simp only [Prod.mk.injEq, Option.some.injEq] at h
    obtain ⟨hn, he⟩ := h
    exact ⟨by simp, by simp [← hn], by simp [← he]⟩
  | cons p rest ih =>
    obtain ⟨i, c⟩ := p
    by_cases hw : eng.writeOk (inputNameFor i c) = true
    · rcases hrest : stageClips eng rest with ⟨names?, evs'⟩
      unfold stageClips at h
      rw [if_pos (by exact_mod_cast hw), hrest] at h
      cases names? with
      | none => simp at h
      | some names' =>
        simp only [Option.map_some', Prod.mk.injEq, Option.some.injEq] at h
        obtain ⟨hn, he⟩ := h
        obtain ⟨hall, hn', he'⟩ := ih names' evs' hrest
        refine ⟨?_, ?_, ?_⟩
        · intro q hq
          rcases List.mem_cons.mp hq with rfl | hq
          · exact hw
          · exact hall q hq
        · rw [← hn, hn']
          rfl
        · rw [← he, he']
          rfl
    · unfold stageClips at h
      rw [if_neg (by simpa using hw)] at h
      simp at h

/-- Characterization of a fully successful `handleJoin` run: the final
state retains exactly the freshly created output URL, and the trace is
the upfront leftover deletes, the per-clip stagings in snapshot order,
the playlist write, the exec, the readback, and the post-success
cleanup of every temporary name. -/
theorem handleJoin_success (eng : Engine) (s : AppState) (h2 : 2 ≤ s.clips.length)
    (hok : joinOk eng s = true) :
    handleJoin eng s
      = { state := { (ensureFFmpeg eng (prologue s)).1 with
            status := msgReady, progressMessage := msgPreview, isJoining := false,
            outputUrl := some s.nextUrl,
            liveUrls := ((ensureFFmpeg eng (prologue s)).1).liveUrls ++ [s.nextUrl],
            nextUrl := s.nextUrl + 1 },
          calls := preDeletes
            ++ (s.clips.enum.map fun p =>
                EngineCall.writeFile (inputNameFor p.1 p.2) p.2.bytes)
            ++ [EngineCall.writeFile "filelist.txt"
                (encodeText (playlistOf (s.clips.enum.map fun p => inputNameFor p.1 p.2)))]
            ++ [EngineCall.runExec concatArgs] ++ [EngineCall.readFile "output.mp4"]
            ++ (s.clips.enum.map fun p => inputNameFor p.1 p.2).map EngineCall.deleteFile
            ++ preDeletes,
          urls := revokesOf s ++ [UrlEvent.create s.nextUrl] } := by
  unfold joinOk at hok
  simp only [Bool.and_eq_true] at hok
  obtain ⟨⟨⟨⟨⟨hready, hall⟩, hwl⟩, hex⟩, hro⟩, hrb⟩ := hok
  have hw : ∀ p ∈ s.clips.enum, eng.writeOk (inputNameFor p.1 p.2) = true := by
    simpa [List.all_eq_true] using hall
  rcases hE : ensureFFmpeg eng (prologue s) with ⟨s3, b⟩
  have hb : b = true := by
    have hsnd := ensureFFmpeg_snd eng (prologue s)
    rw [hE] at hsnd
    simp only at hsnd
    rw [hsnd, prologue_hasEngine, prologue_isFFmpegReady]
    exact hready
  subst hb
  have hnu : s3.nextUrl = s.nextUrl := by
    have h := ensureFFmpeg_fst_nextUrl eng (prologue s)
    rw [hE] at h
    simpa [prologue_nextUrl] using h
  unfold handleJoin
  rw [if_neg (by omega), hE, stageClips_ok eng _ hw]
  simp only [hwl, hex, hro, hrb, if_true, hnu]

/-- Characterization of a failed `handleJoin` run (any failure point):
no artifact is retained, the joining flag is cleared, the only URL
event is the prologue revoke, the only `deleteFile` calls are the two
upfront leftover deletes of the fixed names — in particular no staged
input's release is attempted — and those two deletes do happen whenever
the engine was available. -/
theorem handleJoin_fail (eng : Engine) (s : AppState) (h2 : 2 ≤ s.clips.length)
    (hfail : joinOk eng s = false) :
    (handleJoin eng s).state.outputUrl = none
    ∧ (handleJoin eng s).state.isJoining = false
    ∧ (handleJoin eng s).urls = revokesOf s
    ∧ (∀ nm, EngineCall.deleteFile nm ∈ (handleJoin eng s).calls →
        nm = "filelist.txt" ∨ nm = "output.mp4")
    ∧ (engineReadyAfter eng s = true →
        EngineCall.deleteFile "filelist.txt" ∈ (handleJoin eng s).calls
        ∧ EngineCall.deleteFile "output.mp4" ∈ (handleJoin eng s).calls) := by
  have hpo : (prologue s).outputUrl = none := prologue_outputUrl s
  rcases hE : ensureFFmpeg eng (prologue s) with ⟨s3, b⟩
  have hsnd := ensureFFmpeg_snd eng (prologue s)
  rw [hE] at hsnd
  simp only at hsnd
  have hbready : b = engineReadyAfter eng s := by
    rw [hsnd, engineReadyAfter, prologue_hasEngine, prologue_isFFmpegReady]
  have hs3out : s3.outputUrl = none := by
    have h := ensureFFmpeg_fst_outputUrl eng (prologue s)
    rw [hE] at h
    simpa [hpo] using h
  unfold handleJoin
  rw [if_neg (by omega), hE]
  cases b with
  | false =>
    refine ⟨by simp [joinFail, hs3out], by simp [joinFail], rfl, ?_, ?_⟩
    · intro nm hm
      simp at hm
    · intro hready
      rw [← hbready] at hready
      cases hready
  | true =>
    rcases hst : stageClips eng s.clips.enum with ⟨names?, evs⟩
    have hevw := stageClips_calls_writes eng s.clips.enum
    rw [hst] at hevw
    have hdel : ∀ nm, EngineCall.deleteFile nm ∈ evs →
        nm = "filelist.txt" ∨ nm = "output.mp4" := by
      intro nm hm
      obtain ⟨nm', data', heq⟩ := hevw _ hm
      cases heq
    cases names? with
    | none =>
      refine ⟨by simp [joinFail, hs3out], by simp [joinFail], rfl, ?_, ?_⟩
      · intro nm hm
        rcases List.mem_append.mp hm with hm | hm
        · simp [preDeletes] at hm
          exact hm
        · exact hdel nm hm
      · intro _
        constructor <;> simp [preDeletes]
    | some names =>
      obtain ⟨hall, hnames, hevs⟩ := stageClips_some eng _ names evs hst
      by_cases hwl : eng.writeOk "filelist.txt" = true
      · by_cases hex : eng.execOk = true
        · by_cases hro : eng.readOk = true
          · by_cases hrb : eng.readIsBytes = true
            · exfalso
              have hallb :
                  (s.clips.enum.all fun p => eng.writeOk (inputNameFor p.1 p.2)) = true := by
                simp only [List.all_eq_true]
                exact fun p hp => hall p hp
              have hok : joinOk eng s = true := by
                unfold joinOk
                rw [← hbready, hallb, hwl, hex, hro, hrb]
                rfl
              rw [hok] at hfail
              cases hfail
            · have hrbf : eng.readIsBytes = false := by
                revert hrb
                cases eng.readIsBytes <;> simp
              simp only [hwl, hex, hro, hrbf, if_true, Bool.false_eq_true, if_false]
              refine ⟨by simp [joinFail, hs3out], by simp [joinFail], trivial, ?_, ?_⟩
              · intro nm hm
                simp [preDeletes, hevs] at hm
                exact hm
              · intro _
                constructor <;> simp [preDeletes]
          · have hrof : eng.readOk = false := by
              revert hro
              cases eng.readOk <;> simp
            simp only [hwl, hex, hrof, if_true, Bool.false_eq_true, if_false]
            refine ⟨by simp [joinFail, hs3out], by simp [joinFail], trivial, ?_, ?_⟩
            · intro nm hm
              simp [preDeletes, hevs] at hm
              exact hm
            · intro _
              constructor <;> simp [preDeletes]
        · have hexf : eng.execOk = false := by
            revert hex
            cases eng.execOk <;> simp
          simp only [hwl, hexf, if_true, Bool.false_eq_true, if_false]
          refine ⟨by simp [joinFail, hs3out], by simp [joinFail], trivial, ?_, ?_⟩
          · intro nm hm
            simp [preDeletes, hevs] at hm
            exact hm
          · intro _
            constructor <;> simp [preDeletes]
      · have hwlf : eng.writeOk "filelist.txt" = false := by
          revert hwl
          cases eng.writeOk "filelist.txt" <;> simp
        simp only [hwlf, Bool.false_eq_true, if_false]
        refine ⟨by simp [joinFail, hs3out], by simp [joinFail], trivial, ?_, ?_⟩
        · intro nm hm
          simp [preDeletes, hevs] at hm
          exact hm
        · intro _
          constructor <;> simp [preDeletes]

/-! ### C1 — playlist content and order -/

/-- C1: whenever a join run reaches playlist generation (engine
available and every staging write succeeded), the run writes a playlist
that is exactly the lines `file '<staged-name>'`, one per line joined by
newlines, in the same order as the clip sequence snapshotted at
submission. -/
theorem c1_playlist_in_snapshot_order (eng : Engine) (s : AppState)
    (h2 : 2 ≤ s.clips.length) (hready : engineReadyAfter eng s = true)
    (hw : ∀ p ∈ s.clips.enum, eng.writeOk (inputNameFor p.1 p.2) = true) :
    EngineCall.writeFile "filelist.txt"
        (encodeText (String.intercalate "\n"
          (s.clips.enum.map fun p => "file '" ++ inputNameFor p.1 p.2 ++ "'")))
      ∈ (handleJoin eng s).calls := by
  rcases hE : ensureFFmpeg eng (prologue s) with ⟨s3, b⟩
  have hb : b = true := by
    have hsnd := ensureFFmpeg_snd eng (prologue s)
    rw [hE] at hsnd
    simp only at hsnd
    rw [hsnd, prologue_hasEngine, prologue_isFFmpegReady]
    exact hready
  subst hb
  have hpl : playlistOf (s.clips.enum.map fun p => inputNameFor p.1 p.2)
      = String.intercalate "\n"
          (s.clips.enum.map fun p => "file '" ++ inputNameFor p.1 p.2 ++ "'") := by
    unfold playlistOf
    rw [List.map_map]
    rfl
  unfold handleJoin
  rw [if_neg (by omega), hE, stageClips_ok eng _ hw]
  cases hwl : eng.writeOk "filelist.txt" <;>
    cases hex : eng.execOk <;>
      cases hro : eng.readOk <;>
        cases hrb : eng.readIsBytes <;>
          simp [hwl, hex, hro, hrb, hpl, preDeletes]

/-- Witness for C1 on a two-clip state with an all-succeeding engine. -/
theorem c1_playlist_in_snapshot_order_witness :
    2 ≤ baseState.clips.length
    ∧ engineReadyAfter engineAllOk baseState = true
    ∧ (∀ p ∈ baseState.clips.enum, engineAllOk.writeOk (inputNameFor p.1 p.2) = true)
    ∧ EngineCall.writeFile "filelist.txt"
        (encodeText (String.intercalate "\n"
          (baseState.clips.enum.map fun p => "file '" ++ inputNameFor p.1 p.2 ++ "'")))
      ∈ (handleJoin engineAllOk baseState).calls :=
  ⟨by decide, by decide, by decide,
    c1_playlist_in_snapshot_order engineAllOk baseState (by decide) (by decide) (by decide)⟩

/-! ### C2 — temporary-entry cleanup -/

/-- C2 counterexample: with both stagings succeeding and `exec` failing,
the run stages `clip-0.mp4` (its `writeFile` is in the trace) but never
attempts `deleteFile('clip-0.mp4')` — cleanup of staged inputs is not
attempted on a failed join, contrary to the claim. -/
theorem c2_cleanup_counterexample :
    2 ≤ baseState.clips.length
    ∧ joinOk engineExecFails baseState = false
    ∧ EngineCall.writeFile "clip-0.mp4" clipA.bytes
        ∈ (handleJoin engineExecFails baseState).calls
    ∧ EngineCall.deleteFile "clip-0.mp4"
        ∉ (handleJoin engineExecFails baseState).calls := by
  decide

/-- C2 amended: after every `handleJoin` run past the clip-count check
the job sub-state returns to Idle, and whenever the engine is available
the two fixed names (`filelist.txt`, `output.mp4`) have a release
attempted (the upfront leftover deletes); release of the staged inputs
and of the playlist/output after the join is attempted only when the
whole run succeeds — on a failed run the only releases attempted are
those two upfront fixed-name deletes, so staged inputs are left behind. -/
theorem c2_amended_cleanup (eng : Engine) (s : AppState) (h2 : 2 ≤ s.clips.length) :
    (handleJoin eng s).state.isJoining = false
    ∧ (engineReadyAfter eng s = true →
        EngineCall.deleteFile "filelist.txt" ∈ (handleJoin eng s).calls
        ∧ EngineCall.deleteFile "output.mp4" ∈ (handleJoin eng s).calls)
    ∧ (joinOk eng s = true →
        ∀ p ∈ s.clips.enum,
          EngineCall.deleteFile (inputNameFor p.1 p.2) ∈ (handleJoin eng s).calls)
    ∧ (joinOk eng s = false →
        ∀ nm, EngineCall.deleteFile nm ∈ (handleJoin eng s).calls →
          nm = "filelist.txt" ∨ nm = "output.mp4") := by
  by_cases hok : joinOk eng s = true
  · have hrun := handleJoin_success eng s h2 hok
    refine ⟨?_, ?_, ?_, ?_⟩
    · rw [hrun]
    · intro _
      rw [hrun]
      constructor <;> simp [preDeletes]
    · intro _ p hp
      rw [hrun]
      have hmem : EngineCall.deleteFile (inputNameFor p.1 p.2)
          ∈ (s.clips.enum.map fun q => inputNameFor q.1 q.2).map EngineCall.deleteFile :=
        List.mem_map_of_mem _ (List.mem_map_of_mem _ hp)
      exact List.mem_append.mpr (Or.inl (List.mem_append.mpr (Or.inr hmem)))
    · intro hf
      rw [hf] at hok
      simp at hok
  · have hf : joinOk eng s = false := by
      revert hok
      cases joinOk eng s <;> simp
    obtain ⟨_, hjoin, _, hdel, hpre⟩ := handleJoin_fail eng s h2 hf
    refine ⟨hjoin, hpre, ?_, fun _ => hdel⟩
    intro hok'
    exact absurd hok' hok

/-- Witness for C2 amended on a two-clip state with an all-succeeding
engine. -/
theorem c2_amended_cleanup_witness :
    2 ≤ baseState.clips.length
    ∧ ((handleJoin engineAllOk baseState).state.isJoining = false
      ∧ (engineReadyAfter engineAllOk baseState = true →
          EngineCall.deleteFile "filelist.txt" ∈ (handleJoin engineAllOk baseState).calls
          ∧ EngineCall.deleteFile "output.mp4" ∈ (handleJoin engineAllOk baseState).calls)
      ∧ (joinOk engineAllOk baseState = true →
          ∀ p ∈ baseState.clips.enum,
            EngineCall.deleteFile (inputNameFor p.1 p.2)
              ∈ (handleJoin engineAllOk baseState).calls)
      ∧ (joinOk engineAllOk baseState = false →
          ∀ nm, EngineCall.deleteFile nm ∈ (handleJoin engineAllOk baseState).calls →
            nm = "filelist.txt" ∨ nm = "output.mp4")) :=
  ⟨by decide, c2_amended_cleanup engineAllOk baseState (by decide)⟩

/-! ### C9 — single retained artifact, release before replacement -/

/-- C9: the retained artifact is a single optional slot; every run past
the clip-count check first revokes the previously retained URL before
any new URL event, after a successful run exactly the freshly created
URL is retained, and a failed run retains nothing. -/
theorem c9_artifact_single_owner (eng : Engine) (s : AppState) (h2 : 2 ≤ s.clips.length) :
    (∀ u, s.outputUrl = some u →
      ∃ rest, (handleJoin eng s).urls = UrlEvent.revoke u :: rest
        ∧ ∀ e ∈ rest, ∃ v, e = UrlEvent.create v)
    ∧ (joinOk eng s = true →
        (handleJoin eng s).state.outputUrl = some s.nextUrl
        ∧ (handleJoin eng s).urls = revokesOf s ++ [UrlEvent.create s.nextUrl])
    ∧ (joinOk eng s = false → (handleJoin eng s).state.outputUrl = none) := by
  by_cases hok : joinOk eng s = true
  · have hrun := handleJoin_success eng s h2 hok
    refine ⟨?_, fun _ => ⟨?_, ?_⟩, ?_⟩
    · intro u hu
      rw [hrun]
      refine ⟨[UrlEvent.create s.nextUrl], by simp [revokesOf, hu], ?_⟩
      intro e he
      rw [List.mem_singleton] at he
      exact ⟨_, he⟩
    · rw [hrun]
    · rw [hrun]
    · intro hf
      rw [hf] at hok
      simp at hok
  · have hf : joinOk eng s = false := by
      revert hok
      cases joinOk eng s <;> simp
    obtain ⟨hout, _, hurls, _, _⟩ := handleJoin_fail eng s h2 hf
    refine ⟨?_, fun hok' => absurd hok' hok, fun _ => hout⟩
    intro u hu
    rw [hurls]
    exact ⟨[], by simp [revokesOf, hu], by simp⟩

/-- Witness for C9 on a state retaining URL 0, with an all-succeeding
engine. -/
theorem c9_artifact_single_owner_witness :
    2 ≤ baseState.clips.length
    ∧ ((∀ u, baseState.outputUrl = some u →
        ∃ rest, (handleJoin engineAllOk baseState).urls = UrlEvent.revoke u :: rest
          ∧ ∀ e ∈ rest, ∃ v, e = UrlEvent.create v)
      ∧ (joinOk engineAllOk baseState = true →
          (handleJoin engineAllOk baseState).state.outputUrl = some baseState.nextUrl
          ∧ (handleJoin engineAllOk baseState).urls
              = revokesOf baseState ++ [UrlEvent.create baseState.nextUrl])
      ∧ (joinOk engineAllOk baseState = false →
          (handleJoin engineAllOk baseState).state.outputUrl = none)) :=
  ⟨by decide, c9_artifact_single_owner engineAllOk baseState (by decide)⟩

/-! ### C5 — fewer than two clips -/

/-- C5: with fewer than 2 clips, `handleJoin` returns before any engine
call or URL event: the rejection message is set inline and the final
state is the input state with only `status` changed (clips, job
sub-state, retained artifact all unchanged). -/
theorem c5_reject_fewer_than_two (eng : Engine) (s : AppState) (h : s.clips.length < 2) :
    handleJoin eng s
      = { state := { s with status := msgSelectAtLeastTwo }, calls := [], urls := [] } := by
  unfold handleJoin
  rw [if_pos h]

/-- Witness for C5 on a one-clip state. -/
theorem c5_reject_fewer_than_two_witness :
    oneClipState.clips.length < 2
    ∧ handleJoin engineAllOk oneClipState
      = { state := { oneClipState with status := msgSelectAtLeastTwo }, calls := [],
          urls := [] } :=
  ⟨by decide, c5_reject_fewer_than_two engineAllOk oneClipState (by decide)⟩

/-! ### C3 — `clearAll` -/

/-- C3 counterexample: `clearAll` on a state retaining output artifact 7
empties the clip list but leaves the artifact retained (`outputUrl`
still `some 7`) and its underlying resource unreleased (`liveUrls`
still `[7]`), contradicting the claim that `clearAll` discards the
retained artifact and releases its resource. -/
theorem c3_clearAll_counterexample :
    retainedState.outputUrl = some 7
    ∧ (clearAll retainedState).clips = []
    ∧ (clearAll retainedState).outputUrl = some 7
    ∧ (clearAll retainedState).liveUrls = [7] := by decide

/-- C3 amended: `clearAll` empties the clip sequence and resets the two
message lines, and changes nothing else — in particular the retained
output artifact and its underlying resource are untouched. -/
theorem c3_amended_clearAll (s : AppState) :
    (clearAll s).clips = []
    ∧ (clearAll s).status = msgPickTwo
    ∧ (clearAll s).progressMessage = ""
    ∧ (clearAll s).outputUrl = s.outputUrl
    ∧ (clearAll s).liveUrls = s.liveUrls
    ∧ (clearAll s).isJoining = s.isJoining :=
  ⟨rfl, rfl, rfl, rfl, rfl, rfl⟩

/-! ### C7 — staged name derivation -/

theorem getLast?_map_eq (f : α → β) (l : List α) :
    (l.map f).getLast? = (l.getLast?).map f := by
  induction l with
  | nil => rfl
  | cons a t ih =>
    cases t with
    | nil => rfl
    | cons b t' =>
      simpa using ih

/-- C7 counterexample: the clip named `video` has no extension, yet its
staged name is `clip-0.video`, not `clip-0.mp4` — the claimed `"mp4"`
fallback does not happen, also observable in the staging trace of a
full run. -/
theorem c7_ext_counterexample :
    clipNoExt.name = "video"
    ∧ inputNameFor 0 clipNoExt = "clip-0.video"
    ∧ inputNameFor 0 clipNoExt ≠ "clip-0.mp4"
    ∧ EngineCall.writeFile "clip-0.video" clipNoExt.bytes
        ∈ (handleJoin engineAllOk noExtState).calls := by decide

/-- C7 amended: the staged extension is the last `'.'`-separated segment
of the file name — for a name containing no `'.'` this is the entire
name — and the `'mp4'` fallback is unreachable because `split` always
returns at least one segment. -/
theorem c7_amended_ext (name : String) :
    name.data.splitOn '.' ≠ []
    ∧ extOf name = String.mk ((name.data.splitOn '.').getLastD [])
    ∧ ('.' ∉ name.data → extOf name = name) := by
  have hne : name.data.splitOn '.' ≠ [] := List.splitOnP_ne_nil _ _
  refine ⟨hne, ?_, ?_⟩
  · unfold extOf
    rw [getLast?_map_eq]
    rcases hl : (name.data.splitOn '.').getLast? with _ | last
    · exact absurd (List.getLast?_eq_none_iff.mp hl) hne
    · simp [List.getLastD_eq_getLast?, hl]
  · intro hdot
    have hsingle : name.data.splitOn '.' = [name.data] := by
      apply List.splitOnP_eq_single
      intro x hx
      simp only [beq_iff_eq]
      rintro rfl
      exact hdot hx
    unfold extOf
    rw [hsingle]
    cases name
    rfl

/-- Witness for C7 amended, exercising the no-dot branch at `"video"`. -/
theorem c7_amended_ext_witness :
    ('.' ∉ "video".data) ∧ extOf "video" = "video" :=
  ⟨by decide, (c7_amended_ext "video").2.2 (by decide)⟩

/-! ### C4 — engine initialization

`ensureFFmpeg` in App.tsx (lines 47-85) keeps no shared-promise cache:
after the `ffmpegRef.current && isFFmpegReady` check fails, the call
unconditionally proceeds to fetch the boot artifacts and invoke
`ffmpeg.load`, and `isFFmpegReady` is only set once a load completes.
The synchronous entry below models one call up to the point where its
own load has been started.  The localized variant (part_000 lines
49-124) instead starts a single load at mount, caches its promise in
`ffmpegReadyPromiseRef`, and `ensureFFmpeg` merely awaits it. -/

/-- Shared state observed by the entry of App.tsx's `ensureFFmpeg`:
whether an engine instance exists, whether it is ready, and how many
underlying core loads have been started so far. -/
structure LoadState where
  hasEngine : Bool
  ready : Bool
  loadsStarted : Nat
deriving DecidableEq

/-- Synchronous entry of `ensureFFmpeg` (App.tsx): return immediately
when an instance exists and is ready; otherwise create the instance if
needed and start a core load of its own (no cache, no readiness
re-check before `ffmpeg.load`).  The flag records an immediate return. -/
def ensureFFmpegEntry (s : LoadState) : LoadState × Bool :=
  if s.hasEngine && s.ready then (s, true)
  else ({ hasEngine := true, ready := s.ready, loadsStarted := s.loadsStarted + 1 }, false)

/-- The localized variant's `ensureFFmpeg` (part_000 lines 113-124):
returns the engine immediately when ready; otherwise awaits the cached
mount-time promise and resolves to that promise's outcome (`some true`
success, `some false` the original failure); throws (`none`) only when
no promise was cached.  The second component counts loads started by
the call itself — always zero: only the mount effect loads. -/
def ensureFFmpegShared (ready : Bool) (mountOutcome : Option Bool) : Option Bool × Nat :=
  if ready then (some true, 0)
  else
    match mountOutcome with
    | some o => (some o, 0)
    | none => (none, 0)

/-- C4 counterexample: from the uninitialized state, a second call
entered while the first initialization is still pending (readiness not
yet set) starts a second underlying load: two loads, where the claim
says concurrent callers share one. -/
theorem c4_single_flight_counterexample :
    ((ensureFFmpegEntry (ensureFFmpegEntry
        { hasEngine := false, ready := false, loadsStarted := 0 }).1).1).loadsStarted = 2
    ∧ ¬ ((ensureFFmpegEntry (ensureFFmpegEntry
        { hasEngine := false, ready := false, loadsStarted := 0 }).1).1).loadsStarted ≤ 1 := by
  decide

/-- C4 amended: when the engine is already ready, `ensureEngineReady`
returns immediately without starting a load.  Otherwise, in App.tsx
every call starts its own underlying load (initialization is not
single-flight, though a call after a failed attempt does start a new
one), while in the localized variant a call never starts a load itself:
it shares the single mount-time load's outcome, and after that load has
failed it resolves to the same failure instead of retrying. -/
theorem c4_amended_ensure_engine (s : LoadState) (mo : Option Bool)
    (hready : s.hasEngine = true ∧ s.ready = true) :
    ensureFFmpegEntry s = (s, true)
    ∧ (∀ s' : LoadState, ¬(s'.hasEngine = true ∧ s'.ready = true) →
        ((ensureFFmpegEntry s').1).loadsStarted = s'.loadsStarted + 1
        ∧ (ensureFFmpegEntry s').2 = false)
    ∧ ensureFFmpegShared true mo = (some true, 0)
    ∧ ensureFFmpegShared false (some false) = (some false, 0) := by
  refine ⟨?_, ?_, rfl, rfl⟩
  · unfold ensureFFmpegEntry
    rw [if_pos (by simp [hready.1, hready.2])]
  · intro s' hn
    have hcond : (s'.hasEngine && s'.ready) = false := by
      cases h1 : s'.hasEngine <;> cases h2 : s'.ready <;> simp_all
    unfold ensureFFmpegEntry
    rw [hcond]
    exact ⟨rfl, rfl⟩

/-- Witness for C4 amended at a ready state. -/
theorem c4_amended_ensure_engine_witness :
    (({ hasEngine := true, ready := true, loadsStarted := 1 } : LoadState).hasEngine = true
      ∧ ({ hasEngine := true, ready := true, loadsStarted := 1 } : LoadState).ready = true)
    ∧ ensureFFmpegEntry { hasEngine := true, ready := true, loadsStarted := 1 }
        = ({ hasEngine := true, ready := true, loadsStarted := 1 }, true) :=
  ⟨⟨rfl, rfl⟩,
    (c4_amended_ensure_engine { hasEngine := true, ready := true, loadsStarted := 1 }
      none ⟨rfl, rfl⟩).1⟩

/-! ### C8 — operation sequences: order and id uniqueness

The id source: `createId()` returns `crypto.randomUUID()` (or a
`Math.random()`-derived string).  It is modelled as an indexed stream
`gen : Nat → String` read at successive positions; the uniqueness
guarantee of the claim holds exactly when the stream never repeats a
value (`Function.Injective gen`), which is what `randomUUID` is relied
on for. -/

/-- Fresh clips built from the selected files in order, one `createId`
call per file (`selected.map(file => ({ id: createId(), file }))`). -/
def freshClips (gen : Nat → String) (counter : Nat) : List FileInfo → List Clip
  | [] => []
  | f :: fs =>
    { id := gen counter, name := f.name, size := f.size, bytes := f.bytes }
      :: freshClips gen (counter + 1) fs

/-- One user operation on the clip list. -/
inductive AppOp where
  | add (files : List FileInfo)
  | remove (id : String)
  | move (index : Nat) (dir : MoveDir)

/-- Clip-list state as the component holds it: the JavaScript array
(entries are `Option` because of the `moveClip` splice quirk, C10) and
the position of the id stream. -/
structure ListState where
  clips : List (Option Clip)
  counter : Nat

/-- The component's list updaters: `handleFileSelection` appends fresh
clips (no-op on an empty selection), `removeClip` filters by id (on a
real `undefined` entry the filter callback would throw; the model keeps
such entries), `moveClip` is the splice-based move. -/
def applyOp (gen : Nat → String) (s : ListState) : AppOp → ListState
  | .add files =>
    if files.isEmpty then s
    else
      { clips := s.clips ++ (freshClips gen s.counter files).map some,
        counter := s.counter + files.length }
  | .remove id =>
    { s with clips := s.clips.filter fun c? => (c?.map fun c => c.id != id).getD true }
  | .move index dir => { s with clips := moveClip index dir.delta s.clips }

/-- Ideal clip-list state: a well-formed sequence of clips. -/
structure SpecListState where
  clips : List Clip
  counter : Nat

/-- Modelled from the spec: the §4.1 operation contracts on the ideal
sequence — append one fresh clip per file preserving input order (no-op
on empty input), remove the clip with the given id, swap with the
neighbor in the requested direction (no-op at the boundary). -/
def specApplyOp (gen : Nat → String) (s : SpecListState) : AppOp → SpecListState
  | .add files =>
    if files.isEmpty then s
    else
      { clips := s.clips ++ freshClips gen s.counter files,
        counter := s.counter + files.length }
  | .remove id => { s with clips := s.clips.filter fun c => c.id != id }
  | .move index dir => { s with clips := specMoveClip index dir s.clips }

/-- Component state reached from an empty list by a sequence of
operations. -/
def codeRun (gen : Nat → String) (ops : List AppOp) : ListState :=
  ops.foldl (applyOp gen) { clips := [], counter := 0 }

/-- Ideal state reached from an empty sequence by the same operations. -/
def specRun (gen : Nat → String) (ops : List AppOp) : SpecListState :=
  ops.foldl (specApplyOp gen) { clips := [], counter := 0 }

/-- Well-formedness of an operation sequence: every `move` is issued
with an in-range source index (as the UI's per-row buttons do). -/
def wfOps (gen : Nat → String) (s : SpecListState) : List AppOp → Bool
  | [] => true
  | op :: rest =>
    (match op with
     | .move index _ => decide (index < s.clips.length)
     | _ => true)
    && wfOps gen (specApplyOp gen s op) rest

/-- Invariant: ids in the sequence are pairwise distinct and all drawn
from stream positions below the counter. -/
def IdsOk (gen : Nat → String) (s : SpecListState) : Prop :=
  (s.clips.map Clip.id).Nodup ∧ ∀ c ∈ s.clips, ∃ k, k < s.counter ∧ c.id = gen k

theorem freshClips_id_mem (gen : Nat → String) (fs : List FileInfo) :
    ∀ c : Nat, ∀ x ∈ freshClips gen c fs, ∃ k, c ≤ k ∧ k < c + fs.length ∧ x.id = gen k := by
  induction fs with
  | nil =>
    intro c x hx
    simp [freshClips] at hx
  | cons f fs ih =>
    intro c x hx
    rcases List.mem_cons.mp hx with rfl | hx
    · exact ⟨c, le_refl c, by simp, rfl⟩
    · obtain ⟨k, hk1, hk2, hk3⟩ := ih (c + 1) x hx
      exact ⟨k, by omega, by simp only [List.length_cons]; omega, hk3⟩

theorem freshClips_ids_nodup (gen : Nat → String) (hinj : Function.Injective gen)
    (fs : List FileInfo) : ∀ c : Nat, ((freshClips gen c fs).map Clip.id).Nodup := by
  induction fs with
  | nil =>
    intro c
    simp [freshClips]
  | cons f fs ih =>
    intro c
    simp only [freshClips, List.map_cons, List.nodup_cons]
    refine ⟨?_, ih (c + 1)⟩
    intro hmem
    rw [List.mem_map] at hmem
    obtain ⟨x, hx, hxid⟩ := hmem
    obtain ⟨k, hk1, _, hkid⟩ := freshClips_id_mem gen fs (c + 1) x hx
    rw [hkid] at hxid
    have := hinj hxid
    omega

theorem specMoveClip_perm (i : Nat) (dir : MoveDir) (l : List α) :
    (specMoveClip i dir l).Perm l := by
  cases dir with
  | down => exact swapAdj_perm l i
  | up =>
    cases i with
    | zero => exact List.Perm.refl l
    | succ j => exact swapAdj_perm l j

/-- The splice-based `moveClip` agrees with the spec's swap on a
well-formed list when the source index is in range. -/
theorem moveClip_refines_spec (i : Nat) (dir : MoveDir) (l : List Clip)
    (h : i < l.length) :
    moveClip i dir.delta (l.map some) = (specMoveClip i dir l).map some := by
  have hlen : i < (l.map some).length := by simpa using h
  cases dir with
  | down =>
    rw [MoveDir.delta, specMoveClip, moveClip_down _ _ hlen, swapAdj_map]
  | up =>
    cases i with
    | zero =>
      rw [MoveDir.delta, specMoveClip, moveClip_up_zero]
    | succ j =>
      rw [MoveDir.delta, specMoveClip, moveClip_up_succ _ _ hlen, swapAdj_map]

/-- One-step refinement plus invariant preservation. -/
theorem applyOp_refines (gen : Nat → String) (hinj : Function.Injective gen)
    (sc : SpecListState) (op : AppOp) (hid : IdsOk gen sc)
    (hwf : ∀ i d, op = .move i d → i < sc.clips.length) :
    (applyOp gen { clips := sc.clips.map some, counter := sc.counter } op).clips
      = (specApplyOp gen sc op).clips.map some
    ∧ (applyOp gen { clips := sc.clips.map some, counter := sc.counter } op).counter
      = (specApplyOp gen sc op).counter
    ∧ IdsOk gen (specApplyOp gen sc op) := by
  obtain ⟨hnd, hbound⟩ := hid
  cases op with
  | add files =>
    cases hfe : files.isEmpty
    · refine ⟨?_, ?_, ?_, ?_⟩
      · simp [applyOp, specApplyOp, hfe]
      · simp [applyOp, specApplyOp, hfe]
      · simp only [specApplyOp, hfe, Bool.false_eq_true, if_false, List.map_append,
          List.nodup_append]
        refine ⟨hnd, freshClips_ids_nodup gen hinj files sc.counter, ?_⟩
        intro x hx hx'
        rw [List.mem_map] at hx hx'
        obtain ⟨c1, hc1, rfl⟩ := hx
        obtain ⟨c2, hc2, hideq⟩ := hx'
        obtain ⟨k1, hk1, hk1eq⟩ := hbound c1 hc1
        obtain ⟨k2, hk2lo, _, hk2eq⟩ := freshClips_id_mem gen files sc.counter c2 hc2
        rw [hk1eq, hk2eq] at hideq
        have := hinj hideq.symm
        omega
      · simp only [specApplyOp, hfe, Bool.false_eq_true, if_false]
        intro c hc
        rcases List.mem_append.mp hc with hc | hc
        · obtain ⟨k, hk, hkeq⟩ := hbound c hc
          exact ⟨k, by omega, hkeq⟩
        · obtain ⟨k, hklo, hkhi, hkeq⟩ := freshClips_id_mem gen files sc.counter c hc
          exact ⟨k, by omega, hkeq⟩
    · have hsp : specApplyOp gen sc (.add files) = sc := by
        simp [specApplyOp, hfe]
      refine ⟨?_, ?_, ?_⟩
      · simp [applyOp, specApplyOp, hfe]
      · simp [applyOp, specApplyOp, hfe]
      · rw [hsp]
        exact ⟨hnd, hbound⟩
  | remove id =>
    refine ⟨?_, rfl, ?_, ?_⟩
    · simp only [applyOp, specApplyOp]
      rw [List.filter_map]
      rfl
    · have hsub : ((sc.clips.filter fun c => c.id != id).map Clip.id).Sublist
          (sc.clips.map Clip.id) := (List.filter_sublist _).map Clip.id
      exact hnd.sublist hsub
    · intro c hc
      exact hbound c (List.mem_of_mem_filter hc)
  | move index dir =>
    have hperm := specMoveClip_perm index dir sc.clips
    refine ⟨?_, rfl, ?_, ?_⟩
    · exact moveClip_refines_spec index dir sc.clips (hwf index dir rfl)
    · exact ((hperm.map Clip.id).nodup_iff).mpr hnd
    · intro c hc
      exact hbound c (hperm.mem_iff.mp hc)

/-- Run-level refinement plus invariant. -/
theorem run_invariant (gen : Nat → String) (hinj : Function.Injective gen) :
    ∀ (ops : List AppOp) (sc : SpecListState), IdsOk gen sc →
      wfOps gen sc ops = true →
      (ops.foldl (applyOp gen) { clips := sc.clips.map some, counter := sc.counter }).clips
        = ((ops.foldl (specApplyOp gen) sc).clips).map some
      ∧ IdsOk gen (ops.foldl (specApplyOp gen) sc) := by
  intro ops
  induction ops with
  | nil =>
    intro sc hid _
    exact ⟨rfl, hid⟩
  | cons op rest ih =>
    intro sc hid hwf
    simp only [wfOps, Bool.and_eq_true] at hwf
    obtain ⟨hwf1, hwf2⟩ := hwf
    have hwf1' : ∀ i d, op = .move i d → i < sc.clips.length := by
      intro i d hop
      subst hop
      exact of_decide_eq_true hwf1
    obtain ⟨heq, hcnt, hid'⟩ := applyOp_refines gen hinj sc op hid hwf1'
    have hstate : applyOp gen { clips := sc.clips.map some, counter := sc.counter } op
        = { clips := (specApplyOp gen sc op).clips.map some,
            counter := (specApplyOp gen sc op).counter } := by
      cases happ : applyOp gen { clips := sc.clips.map some, counter := sc.counter } op
      rw [happ] at heq hcnt
      simp only at heq hcnt
      rw [heq, hcnt]
    simp only [List.foldl_cons, hstate]
    exact ih (specApplyOp gen sc op) hid' hwf2

/-- C8: for every sequence of `addClips`/`removeClip`/`moveClip`
operations (moves issued with in-range source indexes, as the UI does)
and any id source that never repeats a value, the resulting clip array
equals the ideal sequence of §4.1 — exactly the non-removed clips, in
the order implied by the operations, with no undefined entry — and no
two clips in it share an id. -/
theorem c8_ops_order_and_unique_ids (gen : Nat → String)
    (hinj : Function.Injective gen) (ops : List AppOp)
    (hwf : wfOps gen { clips := [], counter := 0 } ops = true) :
    (codeRun gen ops).clips = ((specRun gen ops).clips).map some
    ∧ (((specRun gen ops).clips).map Clip.id).Nodup := by
  have h := run_invariant gen hinj ops { clips := [], counter := 0 }
    ⟨List.nodup_nil, by simp⟩ hwf
  exact ⟨h.1, h.2.1⟩

/-- An id stream that never repeats: `n` letters `a`. -/
def genRep : Nat → String := fun n => String.mk (List.replicate n 'a')

theorem genRep_injective : Function.Injective genRep := by
  intro a b h
  have hd := congrArg String.data h
  have : (List.replicate a 'a').length = (List.replicate b 'a').length := by
    simpa [genRep] using congrArg List.length hd
  simpa using this

def fileX : FileInfo := { name := "x.mp4", size := 1, bytes := [1] }
def fileY : FileInfo := { name := "y.mp4", size := 2, bytes := [2] }

/-- Witness for C8: add two files, swap them, remove the clip with id
`"a"`; the hypotheses hold and the conclusion follows by the theorem. -/
theorem c8_ops_order_and_unique_ids_witness :
    Function.Injective genRep
    ∧ wfOps genRep { clips := [], counter := 0 }
        [AppOp.add [fileX, fileY], AppOp.move 0 MoveDir.down, AppOp.remove "a"] = true
    ∧ ((codeRun genRep
          [AppOp.add [fileX, fileY], AppOp.move 0 MoveDir.down, AppOp.remove "a"]).clips
        = ((specRun genRep
          [AppOp.add [fileX, fileY], AppOp.move 0 MoveDir.down, AppOp.remove "a"]).clips).map some
      ∧ (((specRun genRep
          [AppOp.add [fileX, fileY], AppOp.move 0 MoveDir.down, AppOp.remove "a"]).clips).map
            Clip.id).Nodup) :=
  ⟨genRep_injective, by decide,
    c8_ops_order_and_unique_ids genRep genRep_injective
      [AppOp.add [fileX, fileY], AppOp.move 0 MoveDir.down, AppOp.remove "a"] (by decide)⟩

end VideoJoiner
